import Mathlib

/-!
Verification of the audioMotion-analyzer module (v3.6.0, `src/audioMotion-analyzer.js`):
a shallow embedding of its bar-geometry calculator (`_calcBars`, `_calcAux`),
frequency-to-bin mapping (`_freqToBin`), configuration setters (`mode`, `minFreq`,
`maxFreq`, `fftSize`, `setFreqRange`), gradient registration (`registerGradient`),
energy queries (`getEnergy`) and the per-frame energy update of `_draw`.

Modelling conventions:
* JS numbers are embedded as exact rationals (`ℚ`) and integers (`ℤ`);
  array indices and sizes as `ℕ`/`ℤ`.
* The tempered scale of `_calcBars` uses `freq = C0 * ROOT24 ^ (octave*24 + note)`
  with `ROOT24 = 2^(1/24)` and `C0 = 440 * ROOT24 ^ (-114)`, i.e.
  `freq k = 440 * 2 ^ ((k - 114)/24)` for the linear note index `k`.
  These values are irrational, but every use of them in `_calcBars` is either
  `Math.floor(freq * fftSize / sampleRate)` or a comparison against a rational
  bound, and both are decided exactly by raising to the 24th power:
  for `x > 0` and `m > 0`, `m ≤ x ↔ m^24 ≤ x^24`, and
  `Math.floor x = iroot24 ⌊x^24⌋` (floor commutes with exact 24th roots).
  `(freq k * fftSize / sampleRate)^24 = (440*fftSize)^24 * 2^k / (sampleRate^24 * 2^114)`
  is rational, so those operations are implemented below by exact integer
  arithmetic (`iroot24`, `scaleFreqGeB`, `scaleFreqGtB`).
* The pixel position `Math.round(logWidth * (Math.log10 freq - minLog))` of the
  linear (mode 0/10) branch is an irrational-logarithm expression whose exact
  value never matters for the claims below; it is abstracted as an arbitrary
  function parameter `lp : ℤ → ℤ` and all results are proved for every `lp`.
* JS exceptions are modelled by returning the state unchanged together with
  `some err`; a `TypeError` crash inside `_calcBars` (property access on
  `undefined` when `bars` is empty) is modelled by `Option.none`.
-/

/-- Rounding selector of `_freqToBin( freq, rounding )`: `Math.round` or `Math.floor`. -/
inductive Rounding
  | round
  | floor
deriving DecidableEq

/-- `Math[ rounding ]( q )` — JS `Math.round` is `⌊q + 1/2⌋` (half away from minus
infinity), which is exactly Mathlib's `round` on `ℚ`; `Math.floor` is `⌊q⌋`. -/
def roundingApply (r : Rounding) (q : ℚ) : ℤ :=
  match r with
  | .round => round q
  | .floor => ⌊q⌋

/-- `_freqToBin( freq, rounding )`:
`max = frequencyBinCount - 1 = fftSize/2 - 1`,
`bin = Math[rounding]( freq * fftSize / sampleRate )`,
`return bin < max ? bin : max`.

`freq * fftSize / sampleRate` is the exact fraction
`(freq.num * fftSize) / (freq.den * sampleRate)`, so its floor is the Euclidean
quotient of numerator by (positive) denominator, and its half-up rounding
`⌊x + 1/2⌋` is the quotient `(2n + d) / (2d)`; both are computed here in plain
integer arithmetic.  `freqToBin_clamped` proves this equal to
`min (roundingApply r (freq * fftSize / sampleRate)) (fftSize/2 - 1)`. -/
def freqToBin (fft sr : ℕ) (freq : ℚ) (r : Rounding) : ℤ :=
  let mx : ℤ := ((fft / 2 : ℕ) : ℤ) - 1
  let n : ℤ := freq.num * fft
  let d : ℕ := freq.den * sr
  let bin : ℤ :=
    match r with
    | .round => (2 * n + (d : ℤ)) / ((2 * d : ℕ) : ℤ)
    | .floor => n / (d : ℤ)
  if bin < mx then bin else mx

/-- Truncation toward zero of a rational, as in the first step of JS `ToInt32`. -/
def ratTrunc (q : ℚ) : ℤ := if q < 0 then -⌊-q⌋ else ⌊q⌋

/-- JS `value | 0` (`ToInt32`): truncate toward zero, then wrap into
`[-2^31, 2^31)` modulo `2^32`. -/
def jsToInt32 (q : ℚ) : ℤ := (ratTrunc q + 2 ^ 31) % 2 ^ 32 - 2 ^ 31

/-- Fuel-driven digit-by-digit integer 24th root: if `c` is the 24th root of
`n / 2^24` then the root of `n` is `2*c` or `2*c + 1`.  The explicit fuel keeps
the recursion structural, so the definition evaluates by plain reduction;
`iroot24F_spec` proves it correct for any sufficient fuel. -/
def iroot24F : ℕ → ℕ → ℕ
  | 0, _ => 0
  | fuel + 1, n =>
    if n = 0 then 0
    else
      let r := 2 * iroot24F fuel (n / 2 ^ 24)
      if (r + 1) ^ 24 ≤ n then r + 1 else r

/-- Integer 24th root: the largest `m` with `m ^ 24 ≤ n` (see `iroot24_spec`). -/
def iroot24 (n : ℕ) : ℕ := iroot24F n n

/-- The FFT bin of tempered-scale note `k` before clamping:
`Math.floor( freq k * fftSize / sampleRate )` with `freq k = 440 * 2^((k-114)/24)`.
Since `(freq k * fft / sr)^24 = (440*fft)^24 * 2^k / (sr^24 * 2^114)` exactly,
and for `x ≥ 0` the floor of `x` is the largest `m` with `m^24 ≤ ⌊x^24⌋`, this
equals `iroot24 ((440*fft)^24 * 2^k / (sr^24 * 2^114))` (integer division). -/
def octBinRaw (fft sr k : ℕ) : ℕ :=
  iroot24 ((440 * fft) ^ 24 * 2 ^ k / (sr ^ 24 * 2 ^ 114))

/-- `_freqToBin( freq k, 'floor' )` for tempered-scale note `k`: the raw floored
bin, clamped by `bin < max ? bin : max` with `max = fftSize/2 - 1`. -/
def octBin (fft sr k : ℕ) : ℤ :=
  let mx : ℤ := ((fft / 2 : ℕ) : ℤ) - 1
  let bin : ℤ := (octBinRaw fft sr k : ℤ)
  if bin < mx then bin else mx

/-- Decides `freq k ≥ m` for tempered-scale note `k` (`freq k = 440*2^((k-114)/24)`)
and a positive rational bound `m`, by comparing 24th powers:
`m ≤ freq k ↔ m^24 * 2^114 ≤ 440^24 * 2^k ↔
m.num^24 * 2^114 ≤ 440^24 * 2^k * m.den^24` (integer arithmetic;
`scaleFreqGeB_iff` proves the rational form equivalent). -/
def scaleFreqGeB (k : ℕ) (m : ℚ) : Bool :=
  decide (m.num ^ 24 * 2 ^ 114 ≤ 440 ^ 24 * 2 ^ k * (m.den : ℤ) ^ 24)

/-- Decides `freq k > m` for tempered-scale note `k` and a positive rational `m`:
`m < freq k ↔ m^24 * 2^114 < 440^24 * 2^k ↔
m.num^24 * 2^114 < 440^24 * 2^k * m.den^24` (integer arithmetic;
`scaleFreqGtB_iff` proves the rational form equivalent). -/
def scaleFreqGtB (k : ℕ) (m : ℚ) : Bool :=
  decide (m.num ^ 24 * 2 ^ 114 < 440 ^ 24 * 2 ^ k * (m.den : ℤ) ^ 24)

/-- `binToFreq = bin => bin * this.audioCtx.sampleRate / this.fftSize || 1`
(the `|| 1` turns a zero result into 1). -/
def binToFreq (fft sr : ℕ) (bin : ℤ) : ℚ :=
  let f : ℚ := (bin : ℚ) * sr / fft
  if f = 0 then 1 else f

/-- A frequency value stored in a bar: either the tempered-scale note frequency
`C0 * ROOT24 ^ k` (irrational, kept symbolic) or `binToFreq bin` (rational). -/
inductive FreqVal
  | scale (k : ℕ)
  | ofBin (bin : ℤ)
deriving DecidableEq

/-- A fractional-bin interpolation ratio stored in a bar: either the tempered
scale's `( freq - binFreq ) / ( nextFreq - binFreq )` for note `k` (irrational,
kept symbolic) or the literal value 0 the code assigns on adjustment. -/
inductive RatioVal
  | ofScale (k : ℕ)
  | zero
deriving DecidableEq

/-- One visual bar, as pushed by `barsPush` in `_calcBars`:
`{ posX, binLo, binHi, freqLo, freqHi, ratioLo, ratioHi, peak:[0,0], hold:[0], value:[0] }`. -/
structure Bar where
  posX : ℚ
  binLo : ℤ
  binHi : ℤ
  freqLo : FreqVal
  freqHi : FreqVal
  ratioLo : RatioVal
  ratioHi : RatioVal
  peak : List ℚ := [0, 0]
  hold : List ℤ := [0]
  value : List ℚ := [0]
deriving DecidableEq

/-- The configuration read by `_calcBars` / `_calcAux`. -/
structure Cfg where
  mode : ℤ
  minFreq : ℚ
  maxFreq : ℚ
  fftSize : ℕ
  sampleRate : ℕ
  canvasWidth : ℕ
  mirror : ℤ
  radial : Bool
deriving DecidableEq

/-- `centerX = canvas.width >> 1`. -/
def centerX (cfg : Cfg) : ℕ := cfg.canvasWidth / 2

/-- `this._analyzerWidth = canvas.width - centerX * ( this._mirror != 0 )`. -/
def analyzerWidth (cfg : Cfg) : ℕ :=
  cfg.canvasWidth - centerX cfg * (if cfg.mirror ≠ 0 then 1 else 0)

/-- `this._initialX = centerX * ( this._mirror == -1 && ! isRadial )`. -/
def initialX (cfg : Cfg) : ℕ :=
  centerX cfg * (if cfg.mirror = -1 ∧ ¬ cfg.radial then 1 else 0)

/-- `this._isOctaveBands = this._mode % 10 != 0` (from `_calcAux`). -/
def isOctaveBands (mode : ℤ) : Bool := mode % 10 != 0

/-- The per-mode group size table `[0,1,2,3,4,6,8,12,24]` of the octave branch. -/
def stepsTable : List ℕ := [0, 1, 2, 3, 4, 6, 8, 12, 24]

/-- One entry of the 264-entry `temperedScale`: the linear note index `k`
(`k = octave*24 + note`, so `freq = C0 * ROOT24 ^ k`) and its floored FFT bin.
The entry's `ratio` is `RatioVal.ofScale k` and is attached where bars are built. -/
structure TSEntry where
  k : ℕ
  bin : ℤ
deriving DecidableEq

def tsEntry (fft sr k : ℕ) : TSEntry := ⟨k, octBin fft sr k⟩

/-- The groups visited by `for ( let index = 0; index < 264; index += steps )`:
the pair `(temperedScale[index], temperedScale[index + steps - 1])` supplying the
`Lo` and `Hi` fields of each prospective bar.  `steps` always divides 264. -/
def octGroups (fft sr steps : ℕ) : List (TSEntry × TSEntry) :=
  (List.range (264 / steps)).map
    (fun g => (tsEntry fft sr (g * steps), tsEntry fft sr (g * steps + (steps - 1))))

/-- `barsPush( 0, binLo, binHi, freqLo, freqHi, ratioLo, ratioHi )` of the octave
branch (posX is assigned after the loop). -/
def mkOctBar (binLo binHi : ℤ) (freqLo freqHi : FreqVal) (ratioLo ratioHi : RatioVal) : Bar :=
  { posX := 0, binLo := binLo, binHi := binHi, freqLo := freqLo, freqHi := freqHi,
    ratioLo := ratioLo, ratioHi := ratioHi }

/-- The body of the octave-band grouping loop of `_calcBars`, with the bars
accumulated in reverse (head = most recently pushed bar, `prevBar`).
`none` models the JS `TypeError` thrown by `prevBar.binHi++` when the break
branch is reached with no bar pushed yet.

Source (lines 567–601):
```
if ( freqHi > maxFreq || binHi >= this.fftSize / 2 ) {
  prevBar.binHi++; prevBar.ratioHi = 0; prevBar.freqHi = binToFreq( prevBar.binHi ); break;
}
if ( freqLo >= minFreq ) {
  if ( nBars > 0 ) {
    const diff = binLo - prevBar.binHi;
    if ( diff > 1 ) {
      prevBar.binHi = binLo - ( diff >> 1 ); prevBar.ratioHi = 0;
      prevBar.freqHi = binToFreq( prevBar.binHi );
      if ( nBars > 1 && prevBar.binHi > prevBar.binLo && prevBar.binLo > bars[ nBars - 2 ].binHi ) {
        prevBar.ratioLo = 0; prevBar.freqLo = binToFreq( prevBar.binLo );
      }
      binLo = prevBar.binHi + 1;
    }
    if ( binHi > binLo && binLo > prevBar.binHi ) { ratioLo = 0; freqLo = binToFreq( binLo ); }
  }
  barsPush( 0, binLo, binHi, freqLo, freqHi, ratioLo, ratioHi );
}
```
(`diff >> 1` is floor halving; it is only reached with `diff > 1`, where it
agrees with Euclidean `diff / 2`). -/
def octPush (lo hi : TSEntry) (prev : Bar) (tail : List Bar) : List Bar :=
  let diff := lo.bin - prev.binHi
  let prevN : Bar :=
    if 1 < diff then
      let newHi := lo.bin - diff / 2
      let prev1 :=
        { prev with
            binHi := newHi,
            ratioHi := RatioVal.zero,
            freqHi := FreqVal.ofBin newHi }
      match tail with
      | [] => prev1
      | pp :: _ =>
        if prev1.binLo < prev1.binHi ∧ pp.binHi < prev1.binLo then
          { prev1 with ratioLo := RatioVal.zero, freqLo := FreqVal.ofBin prev1.binLo }
        else prev1
    else prev
  let binLoN := if 1 < diff then prevN.binHi + 1 else lo.bin
  let newBar : Bar :=
    if binLoN < hi.bin ∧ prevN.binHi < binLoN then
      mkOctBar binLoN hi.bin (.ofBin binLoN) (.scale hi.k) .zero (.ofScale hi.k)
    else
      mkOctBar binLoN hi.bin (.scale lo.k) (.scale hi.k) (.ofScale lo.k) (.ofScale hi.k)
  newBar :: prevN :: tail

def octGo (cfg : Cfg) : List (TSEntry × TSEntry) → List Bar → Option (List Bar)
  | [], rev => some rev
  | (lo, hi) :: rest, rev =>
    if scaleFreqGtB hi.k cfg.maxFreq || ((cfg.fftSize / 2 : ℕ) : ℤ) ≤ hi.bin then
      match rev with
      | [] => none
      | prev :: tail =>
        some ({ prev with
                  binHi := prev.binHi + 1,
                  ratioHi := RatioVal.zero,
                  freqHi := FreqVal.ofBin (prev.binHi + 1) } :: tail)
    else if scaleFreqGeB lo.k cfg.minFreq then
      match rev with
      | [] =>
        octGo cfg rest
          [mkOctBar lo.bin hi.bin (.scale lo.k) (.scale hi.k) (.ofScale lo.k) (.ofScale hi.k)]
      | prev :: tail => octGo cfg rest (octPush lo hi prev tail)
    else octGo cfg rest rev

/-- `bars.forEach( ( bar, index ) => bar.posX = initialX + index * this._barWidth )`. -/
def assignPos (initX barWidth : ℚ) : ℕ → List Bar → List Bar
  | _, [] => []
  | i, b :: t => { b with posX := initX + i * barWidth } :: assignPos initX barWidth (i + 1) t

/-- The octave-band (`_isOctaveBands`) branch of `_calcBars`:
build the tempered scale, group it by `steps = [0,1,2,3,4,6,8,12,24][mode]`,
run the loop, then `_barWidth = analyzerWidth / bars.length` and assign `posX`.
`none` models the TypeError crash paths (the break fix-up with no bars, or
`Math.log10( bars[0].freqLo )` with an empty bar list). -/
def octaveBars (cfg : Cfg) : Option (List Bar) :=
  let steps := stepsTable.getD cfg.mode.toNat 0
  match octGo cfg (octGroups cfg.fftSize cfg.sampleRate steps) [] with
  | none => none
  | some [] => none
  | some (b :: t) =>
    let bars := (b :: t).reverse
    some (assignPos ((initialX cfg : ℕ) : ℚ) (((analyzerWidth cfg : ℕ) : ℚ) / bars.length) 0 bars)

/-- `barsPush( pos, i, i, freq, freq, 0, 0 )` of the linear (mode 0/10) branch,
with `freq = binToFreq i`. -/
def mkLinBar (pos i : ℤ) : Bar :=
  { posX := (pos : ℚ), binLo := i, binHi := i,
    freqLo := .ofBin i, freqHi := .ofBin i, ratioLo := .zero, ratioHi := .zero }

/-- The linear-branch loop of `_calcBars` (lines 618–629), bars accumulated in
reverse.  `lp i` stands for `Math.round( logWidth * ( Math.log10( binToFreq i ) - minLog ) )`
(an irrational-logarithm expression, abstracted — see the header comment):
```
for ( let i = minIndex; i <= maxIndex; i++ ) {
  const freq = binToFreq( i ), pos = initialX + Math.round( ... );
  if ( pos > lastPos ) { barsPush( pos, i, i, freq, freq, 0, 0 ); lastPos = pos; }
  else if ( bars.length ) { bars[last].binHi = i; bars[last].freqHi = freq; }
}
``` -/
def linGo (initX : ℤ) (lp : ℤ → ℤ) : List ℤ → ℤ → List Bar → List Bar
  | [], _, rev => rev
  | i :: rest, lastPos, rev =>
    let pos := initX + lp i
    if lastPos < pos then
      linGo initX lp rest pos (mkLinBar pos i :: rev)
    else
      match rev with
      | [] => linGo initX lp rest lastPos []
      | b :: t => linGo initX lp rest lastPos ({ b with binHi := i, freqHi := .ofBin i } :: t)

/-- The integer interval `[a, b]` as a list (the `for ( i = a; i <= b; i++ )` domain). -/
def intRange (a b : ℤ) : List ℤ :=
  (List.range (b + 1 - a).toNat).map (fun n : ℕ => a + (n : ℤ))

/-- The linear/logarithmic (mode 0 and 10) branch of `_calcBars`:
`minIndex = _freqToBin( minFreq, 'floor' )`, `maxIndex = _freqToBin( maxFreq )`,
one bar per distinct rounded pixel position, merging repeats. -/
def linearBars (cfg : Cfg) (lp : ℤ → ℤ) : List Bar :=
  let minIndex := freqToBin cfg.fftSize cfg.sampleRate cfg.minFreq .floor
  let maxIndex := freqToBin cfg.fftSize cfg.sampleRate cfg.maxFreq .round
  (linGo ((initialX cfg : ℕ) : ℤ) lp (intRange minIndex maxIndex) (-999) []).reverse

/-- `_calcBars`: dispatches on `this._isOctaveBands` (set in `_calcAux` to
`mode % 10 != 0`) between the octave-band and the linear algorithms. -/
def calcBars (cfg : Cfg) (lp : ℤ → ℤ) : Option (List Bar) :=
  if isOctaveBands cfg.mode then octaveBars cfg else some (linearBars cfg lp)

/-- Error codes of `AudioMotionError` raised by the modelled operations. -/
inductive AMError
  | ERR_FREQUENCY_TOO_LOW
  | ERR_INVALID_MODE
  | ERR_GRADIENT_INVALID_NAME
  | ERR_GRADIENT_NOT_AN_OBJECT
  | ERR_GRADIENT_MISSING_COLOR
  | ERR_UNKNOWN_GRADIENT
deriving DecidableEq

/-- A gradient color stop: either a bare color string or a `{ pos, color }` pair. -/
inductive ColorStop
  | color (c : String)
  | posColor (pos : ℚ) (c : String)
deriving DecidableEq

/-- A registered gradient: `{ bgColor, dir, colorStops }`. -/
structure Gradient where
  bgColor : String
  dir : Option String
  colorStops : List ColorStop
deriving DecidableEq

/-- The `options` argument of `registerGradient`; `none` fields model absent JS
properties (`undefined`). -/
structure GradOptions where
  bgColor : Option String := none
  dir : Option String := none
  colorStops : Option (List ColorStop) := none

/-- Whether JS `name.trim().length == 0` holds: `trim` strips leading and
trailing whitespace, so the trimmed length is zero exactly when every character
is whitespace (space, tab or line terminator). -/
def jsBlank (s : String) : Bool :=
  s.data.all (fun c => c = ' ' ∨ c = '\t' ∨ c = '\n' ∨ c = '\r')

/-- The built-in gradients installed by the constructor (`this._gradients`). -/
def defaultGradients : List (String × Gradient) :=
  [ ("classic",
      { bgColor := "#111", dir := none,
        colorStops :=
          [ .color "hsl( 0, 100%, 50% )",
            .posColor (6/10) "hsl( 60, 100%, 50% )",
            .color "hsl( 120, 100%, 50% )" ] }),
    ("prism",
      { bgColor := "#111", dir := none,
        colorStops :=
          [ .color "hsl( 0, 100%, 50% )", .color "hsl( 60, 100%, 50% )",
            .color "hsl( 120, 100%, 50% )", .color "hsl( 180, 100%, 50% )",
            .color "hsl( 240, 100%, 50% )" ] }),
    ("rainbow",
      { bgColor := "#111", dir := some "h",
        colorStops :=
          [ .color "hsl( 0, 100%, 50% )", .color "hsl( 60, 100%, 50% )",
            .color "hsl( 120, 100%, 50% )", .color "hsl( 180, 100%, 47% )",
            .color "hsl( 240, 100%, 58% )", .color "hsl( 300, 100%, 50% )",
            .color "hsl( 360, 100%, 50% )" ] }),
    ("purple",
      { bgColor := "transparent", dir := none,
        colorStops :=
          [ .color "hsl( 280, 100%, 60% )", .color "hsl( 320, 100%, 60% )",
            .color "hsl( 280, 100%, 40% )" ] }) ]

/-- JS object-key assignment `this._gradients[ name ] = g`: replace the entry if
the key exists, otherwise append it. -/
def upsertGradient (l : List (String × Gradient)) (n : String) (g : Gradient) :
    List (String × Gradient) :=
  match l with
  | [] => [(n, g)]
  | (k, v) :: t => if k = n then (n, g) :: t else (k, v) :: upsertGradient t n g

/-- The global energy record `this._energy = { val, peak, hold }`. -/
structure Energy where
  val : ℚ
  peak : ℚ
  hold : ℤ
deriving DecidableEq

/-- The end-of-frame global energy update of `_draw` (lines 1020–1025):
```
energy.val = currentEnergy / ( nBars << isStereo );
if ( energy.val >= energy.peak ) { energy.peak = energy.val; energy.hold = 30; }
else {
  if ( energy.hold > 0 ) energy.hold--;
  else if ( energy.peak > 0 ) energy.peak *= ( 30 + energy.hold-- ) / 30;
}
```
(`hold--` is a post-decrement: the multiplier uses the old value). -/
def updateEnergy (e : Energy) (v : ℚ) : Energy :=
  if e.peak ≤ v then ⟨v, v, 30⟩
  else if 0 < e.hold then ⟨v, e.peak, e.hold - 1⟩
  else if 0 < e.peak then ⟨v, e.peak * ((30 + e.hold : ℤ) : ℚ) / 30, e.hold - 1⟩
  else ⟨v, e.peak, e.hold⟩

/-- Per-bar height computation of `_draw` (lines 863–868), for one channel:
```
let barHeight = Math.max( interpolate( binLo, ratioLo ), interpolate( binHi, ratioHi ) );
for ( let j = binLo + 1; j < binHi; j++ ) if ( fftData[ j ] > barHeight ) barHeight = fftData[ j ];
barHeight /= 255;
```
with `interpolate = ( bin, ratio ) => fftData[ bin ] + ( fftData[ bin + 1 ] - fftData[ bin ] ) * ratio`.
`data` is the channel's byte array as a total function; `rEval` evaluates the
stored (possibly symbolic) ratio to its numeric value. -/
def barFrameValue (data : ℕ → ℕ) (rEval : RatioVal → ℚ) (b : Bar) : ℚ :=
  let interp : ℤ → RatioVal → ℚ := fun bin r =>
    (data bin.toNat : ℚ) + ((data (bin + 1).toNat : ℚ) - (data bin.toNat : ℚ)) * rEval r
  let base := max (interp b.binLo b.ratioLo) (interp b.binHi b.ratioHi)
  let h := (List.range (b.binHi - (b.binLo + 1)).toNat).foldl
    (fun acc (j : ℕ) => max acc ((data (b.binLo + 1 + (j : ℤ)).toNat : ℚ))) base
  h / 255

/-- The channel indices iterated by `for ( let channel = 0; channel < isStereo + 1; channel++ )`. -/
def channelList (stereo : Bool) : List ℕ := if stereo then [0, 1] else [0]

/-- `currentEnergy / ( nBars << isStereo )`: the instantaneous average bar value
of one frame — `currentEnergy` accumulates `barHeight` over every channel and
every bar, and `nBars << isStereo` is `nBars * (stereo ? 2 : 1)`. -/
def frameEnergyVal (bars : List Bar) (stereo : Bool) (data : ℕ → ℕ → ℕ)
    (rEval : RatioVal → ℚ) : ℚ :=
  (((channelList stereo).map
      (fun c => (bars.map (barFrameValue (data c) rEval)).sum)).sum)
    / ((bars.length : ℚ) * ((channelList stereo).length : ℚ))

/-- The modelled analyzer state: configuration fields, per-channel magnitude
arrays (`this._fftData`), energy record, bar sequence (`none` while unset or
after a `_calcBars` crash), gradient table and the abstract log-position
environment `lp` used by the linear branch (see the header comment). -/
structure AMState where
  mode : ℤ
  minFreq : ℚ
  maxFreq : ℚ
  fftSize : ℕ
  sampleRate : ℕ
  canvasWidth : ℕ
  mirror : ℤ
  radial : Bool
  stereo : Bool
  fftData0 : List ℕ
  fftData1 : List ℕ
  energy : Energy
  bars : Option (List Bar)
  gradients : List (String × Gradient)
  gradient : String
  lp : ℤ → ℤ

/-- The configuration slice of the state read by `_calcBars`/`_calcAux`. -/
def AMState.cfg (s : AMState) : Cfg :=
  ⟨s.mode, s.minFreq, s.maxFreq, s.fftSize, s.sampleRate, s.canvasWidth, s.mirror, s.radial⟩

/-- Re-run `_calcBars` against the current configuration. -/
def AMState.recalc (s : AMState) : AMState := { s with bars := calcBars s.cfg s.lp }

/-- `set minFreq( value )`: `if ( value < 1 ) throw ERR_FREQUENCY_TOO_LOW;
this._minFreq = value; this._calcBars();` — no comparison against `maxFreq`. -/
def AMState.setMinFreq (s : AMState) (v : ℚ) : AMState × Option AMError :=
  if v < 1 then (s, some AMError.ERR_FREQUENCY_TOO_LOW)
  else ({ s with minFreq := v }.recalc, none)

/-- `set maxFreq( value )`: symmetric to `set minFreq`. -/
def AMState.setMaxFreq (s : AMState) (v : ℚ) : AMState × Option AMError :=
  if v < 1 then (s, some AMError.ERR_FREQUENCY_TOO_LOW)
  else ({ s with maxFreq := v }.recalc, none)

/-- `setFreqRange( min, max )`:
```
if ( min < 1 || max < 1 ) throw ERR_FREQUENCY_TOO_LOW;
this._minFreq = Math.min( min, max ); this._maxFreq = Math.max( min, max );
this._calcBars();
``` -/
def AMState.setFreqRange (s : AMState) (mn mx : ℚ) : AMState × Option AMError :=
  if mn < 1 ∨ mx < 1 then (s, some AMError.ERR_FREQUENCY_TOO_LOW)
  else ({ s with minFreq := min mn mx, maxFreq := max mn mx }.recalc, none)

/-- `set mode( value )`:
```
const mode = value | 0;
if ( mode >= 0 && mode <= 10 && mode != 9 ) { this._mode = mode; this._calcAux(); this._calcBars(); this._makeGrad(); }
else throw ERR_INVALID_MODE;
```
(`_calcAux` results are derived on demand here; `_makeGrad` only touches the
canvas-side gradient object, which is not part of the modelled state). -/
def AMState.setMode (s : AMState) (value : ℚ) : AMState × Option AMError :=
  let m := jsToInt32 value
  if 0 ≤ m ∧ m ≤ 10 ∧ m ≠ 9 then ({ s with mode := m }.recalc, none)
  else (s, some AMError.ERR_INVALID_MODE)

/-- `set fftSize( value )`:
```
for ( const i of [0,1] ) this._analyzer[ i ].fftSize = value;
const binCount = this._analyzer[0].frequencyBinCount;   // = value / 2
this._fftData = [ new Uint8Array( binCount ), new Uint8Array( binCount ) ];
this._calcBars();
```
(`Uint8Array( n )` is zero-filled; Web Audio defines `frequencyBinCount = fftSize / 2`). -/
def AMState.setFftSize (s : AMState) (v : ℕ) : AMState :=
  let s1 := { s with fftSize := v }
  let binCount := v / 2
  { s1 with
      fftData0 := List.replicate binCount 0,
      fftData1 := List.replicate binCount 0,
      bars := calcBars s1.cfg s1.lp }

/-- `registerGradient( name, options )`:
```
if ( typeof name !== 'string' || name.trim().length == 0 ) throw ERR_GRADIENT_INVALID_NAME;
if ( typeof options !== 'object' ) throw ERR_GRADIENT_NOT_AN_OBJECT;
if ( options.colorStops === undefined || options.colorStops.length < 2 ) throw ERR_GRADIENT_MISSING_COLOR;
this._gradients[ name ] = { bgColor: options.bgColor || '#111', dir: options.dir, colorStops: options.colorStops };
```
`name = none` models a non-string argument, `opts = none` a non-object one.
(The trailing `if ( name == this._gradient ) this._makeGrad()` only rebuilds the
canvas gradient object, not modelled state). -/
def AMState.registerGradient (s : AMState) (name : Option String)
    (opts : Option GradOptions) : AMState × Option AMError :=
  match name with
  | none => (s, some AMError.ERR_GRADIENT_INVALID_NAME)
  | some nm =>
    if jsBlank nm then (s, some AMError.ERR_GRADIENT_INVALID_NAME)
    else match opts with
    | none => (s, some AMError.ERR_GRADIENT_NOT_AN_OBJECT)
    | some o =>
      match o.colorStops with
      | none => (s, some AMError.ERR_GRADIENT_MISSING_COLOR)
      | some cs =>
        if cs.length < 2 then (s, some AMError.ERR_GRADIENT_MISSING_COLOR)
        else
          let bg := match o.bgColor with
            | some c => if c = "" then "#111" else c
            | none => "#111"
          ({ s with gradients := upsertGradient s.gradients nm ⟨bg, o.dir, cs⟩ }, none)

/-- The argument of `getEnergy( startFreq, endFreq )`: no argument, a non-numeric
string (for which JS `startFreq != +startFreq` holds), or numeric frequencies
(`endFreq` possibly absent). -/
inductive EnergyArg
  | noArg
  | str (s : String)
  | freqs (startFreq : ℚ) (endFreq : Option ℚ)

/-- The preset frequency bands of `getEnergy`. -/
def presetBand : String → Option (ℚ × ℚ)
  | "bass" => some (20, 250)
  | "lowMid" => some (250, 500)
  | "mid" => some (500, 2000)
  | "highMid" => some (2000, 4000)
  | "treble" => some (4000, 16000)
  | _ => none

/-- `for ( let i = a; i < a + n; i++ ) acc += f i` — the inner bin loop of
`getEnergy`, unrolled over an explicit iteration count. -/
def sumLoop (f : ℤ → ℚ) : ℤ → ℕ → ℚ
  | _, 0 => 0
  | a, n + 1 => f a + sumLoop f (a + 1) n

/-- The channel's magnitude array (`this._fftData[ channel ]`). -/
def AMState.dataOf (s : AMState) (c : ℕ) : List ℕ :=
  if c = 0 then s.fftData0 else s.fftData1

/-- The frequency-range branch of `getEnergy` (lines 428–435):
```
const startBin = this._freqToBin( startFreq ),
      endBin   = endFreq ? this._freqToBin( endFreq ) : startBin,
      chnCount = this._stereo + 1;
let energy = 0;
for ( let channel = 0; channel < chnCount; channel++ )
  for ( let i = startBin; i <= endBin; i++ ) energy += this._fftData[ channel ][ i ];
return energy / ( endBin - startBin + 1 ) / chnCount / 255;
``` -/
def bandEnergyCalc (s : AMState) (startFreq : ℚ) (endFreq : Option ℚ) : ℚ :=
  let startBin := freqToBin s.fftSize s.sampleRate startFreq .round
  let endBin := match endFreq with
    | some e => if e = 0 then startBin else freqToBin s.fftSize s.sampleRate e .round
    | none => startBin
  let chnCount : ℕ := if s.stereo then 2 else 1
  let energy := ((List.range chnCount).map (fun c =>
    sumLoop (fun i => ((s.dataOf c).getD i.toNat 0 : ℚ)) startBin (endBin + 1 - startBin).toNat)).sum
  energy / ((endBin - startBin + 1 : ℤ) : ℚ) / (chnCount : ℚ) / 255

/-- `getEnergy( startFreq, endFreq )` dispatch (lines 414–436):
undefined → `_energy.val`; non-numeric string → `'peak'` / preset band lookup
(`null` when unknown); numeric → the bin-range mean. -/
def AMState.getEnergy (s : AMState) : EnergyArg → Option ℚ
  | .noArg => some s.energy.val
  | .str name =>
    if name = "peak" then some s.energy.peak
    else match presetBand name with
      | none => none
      | some (a, b) => some (bandEnergyCalc s a (some b))
  | .freqs a b => some (bandEnergyCalc s a b)

/-- Claim-side (spec-side) formulation of the bin-range mean of `getEnergy`:
the mean of the per-bin byte magnitudes over the inclusive bin range, averaged
over the active channels and normalized by 255. -/
def meanMagnitude (s : AMState) (a b : ℤ) : ℚ :=
  let chn : ℕ := if s.stereo then 2 else 1
  (∑ c ∈ Finset.range chn, ∑ i ∈ Finset.Icc a b, ((s.dataOf c).getD i.toNat 0 : ℚ))
    / (((b - a + 1 : ℤ) : ℚ) * (chn : ℚ) * 255)

/-- Geometry invariant, part 1: every bar's low bin bound is at most its high bound. -/
def binsWellFormed (l : List Bar) : Prop := ∀ b ∈ l, b.binLo ≤ b.binHi

/-- Geometry invariant, part 2: bars are ordered left-to-right by strictly
increasing `posX`. -/
def orderedPosX (l : List Bar) : Prop := l.Chain' (fun a b => a.posX < b.posX)

/-- Geometry invariant, part 3 (weak form): consecutive bars' bin ranges are
non-decreasing in both endpoints. -/
def binsNonDecreasing (l : List Bar) : Prop :=
  l.Chain' (fun a b => a.binLo ≤ b.binLo ∧ a.binHi ≤ b.binHi)

/-- Geometry invariant, part 3 (strong form, as claimed): consecutive bars' bin
ranges are disjoint — each bar's low bin strictly exceeds its predecessor's high bin. -/
def binsNonOverlapping (l : List Bar) : Prop :=
  l.Chain' (fun a b => a.binHi < b.binLo)

/-- Executable decision procedure for `binsNonOverlapping` (the generic
`List.Chain'` decidability instance is built with `Eq.rec` and does not evaluate
by reduction). -/
instance instDecBinsNonOverlapping : (l : List Bar) → Decidable (binsNonOverlapping l)
  | [] => isTrue (by simp [binsNonOverlapping])
  | [_] => isTrue (by simp [binsNonOverlapping])
  | a :: b :: t =>
    match instDecBinsNonOverlapping (b :: t) with
    | isTrue ht =>
      if h : a.binHi < b.binLo then
        isTrue (List.chain'_cons.mpr ⟨h, ht⟩)
      else isFalse (fun hc => h (List.chain'_cons.mp hc).1)
    | isFalse ht => isFalse (fun hc => ht (List.chain'_cons.mp hc).2)

/-- A small but fully valid demonstration state (power-of-two FFT size,
frequencies ≥ 1): mode 0, 20–22000 Hz, fftSize 32, 44100 Hz sample rate,
64 px canvas, default built-in gradients, zeroed data and energy. -/
def demoState : AMState :=
  { mode := 0, minFreq := 20, maxFreq := 22000, fftSize := 32, sampleRate := 44100,
    canvasWidth := 64, mirror := 0, radial := false, stereo := false,
    fftData0 := List.replicate 16 0, fftData1 := List.replicate 16 0,
    energy := ⟨0, 0, 0⟩, bars := none, gradients := defaultGradients,
    gradient := "classic", lp := fun i => i }

/-- `demoState` with a non-trivial magnitude array, for energy-query examples. -/
def demoStateData : AMState :=
  { demoState with
      fftData0 := [10, 20, 30, 40, 50, 60, 70, 80, 90, 100, 110, 120, 130, 140, 150, 160] }

/-- A minimal single bar covering FFT bin 0, for frame-energy examples. -/
def demoBar : Bar :=
  ⟨0, 0, 0, FreqVal.ofBin 0, FreqVal.ofBin 0, RatioVal.zero, RatioVal.zero, [0, 0], [0], [0]⟩

/-- Invariant carried by the reversed bar accumulator of the octave-band loop
(head = `prevBar`): well-formed bin ranges, non-decreasing toward the head. -/
def barsOrderedRev (rev : List Bar) : Prop :=
  (∀ b ∈ rev, b.binLo ≤ b.binHi) ∧
    rev.Chain' (fun a b => b.binLo ≤ a.binLo ∧ b.binHi ≤ a.binHi)

/-- Invariant carried by the reversed bar accumulator of the linear loop:
well-formed and strictly separated bin ranges, strictly decreasing positions
toward the tail. -/
def linOrderedRev (rev : List Bar) : Prop :=
  (∀ b ∈ rev, b.binLo ≤ b.binHi) ∧
    rev.Chain' (fun a b => b.binHi < a.binLo) ∧
    rev.Chain' (fun a b => b.posX < a.posX)

theorem iroot24F_spec : ∀ (fuel n : ℕ), n ≤ fuel →
    iroot24F fuel n ^ 24 ≤ n ∧ n < (iroot24F fuel n + 1) ^ 24 := by
  intro fuel
  induction fuel with
  | zero =>
    intro n hn
    rw [iroot24F]
    omega
  | succ fuel ih =>
    intro n hn
    rw [iroot24F]
    by_cases h0 : n = 0
    · simp [h0]
    · simp only [h0, if_false]
      have hrec : n / 2 ^ 24 ≤ fuel := by
        have : n / 2 ^ 24 < n := Nat.div_lt_self (Nat.pos_of_ne_zero h0) (by norm_num)
        omega
      obtain ⟨hc1, hc2⟩ := ih (n / 2 ^ 24) hrec
      have hlow : (2 * iroot24F fuel (n / 2 ^ 24)) ^ 24 ≤ n := by
        calc (2 * iroot24F fuel (n / 2 ^ 24)) ^ 24
            = iroot24F fuel (n / 2 ^ 24) ^ 24 * 2 ^ 24 := by ring
          _ ≤ n / 2 ^ 24 * 2 ^ 24 := Nat.mul_le_mul_right _ hc1
          _ ≤ n := Nat.div_mul_le_self n _
      have hhigh : n < (2 * iroot24F fuel (n / 2 ^ 24) + 2) ^ 24 := by
        have h1 := (Nat.div_lt_iff_lt_mul (k := 2 ^ 24) (by norm_num)).mp hc2
        calc n < (iroot24F fuel (n / 2 ^ 24) + 1) ^ 24 * 2 ^ 24 := h1
          _ = (2 * iroot24F fuel (n / 2 ^ 24) + 2) ^ 24 := by ring
      split
      · constructor
        · assumption
        · have he : 2 * iroot24F fuel (n / 2 ^ 24) + 1 + 1 =
              2 * iroot24F fuel (n / 2 ^ 24) + 2 := by ring
          rw [he]
          exact hhigh
      · exact ⟨hlow, by omega⟩

theorem iroot24_spec (n : ℕ) : iroot24 n ^ 24 ≤ n ∧ n < (iroot24 n + 1) ^ 24 :=
  iroot24F_spec n n le_rfl

theorem iroot24_mono {a b : ℕ} (h : a ≤ b) : iroot24 a ≤ iroot24 b := by
  by_contra hlt
  push_neg at hlt
  have h1 : iroot24 b + 1 ≤ iroot24 a := hlt
  have h2 : (iroot24 b + 1) ^ 24 ≤ (iroot24 a) ^ 24 := Nat.pow_le_pow_left h1 24
  have := (iroot24_spec a).1
  have := (iroot24_spec b).2
  omega

theorem octBinRaw_mono (fft sr : ℕ) {k k' : ℕ} (h : k ≤ k') :
    octBinRaw fft sr k ≤ octBinRaw fft sr k' := by
  unfold octBinRaw
  exact iroot24_mono (Nat.div_le_div_right
    (Nat.mul_le_mul_left _ (Nat.pow_le_pow_right (by norm_num) h)))

theorem octBin_eq_min (fft sr k : ℕ) :
    octBin fft sr k = min ((octBinRaw fft sr k : ℕ) : ℤ) (((fft / 2 : ℕ) : ℤ) - 1) := by
  unfold octBin
  dsimp only
  split <;> omega

theorem octBin_mono (fft sr : ℕ) {k k' : ℕ} (h : k ≤ k') :
    octBin fft sr k ≤ octBin fft sr k' := by
  rw [octBin_eq_min, octBin_eq_min]
  exact min_le_min (by exact_mod_cast octBinRaw_mono fft sr h) le_rfl

theorem octGroups_within (fft sr steps : ℕ) :
    ∀ g ∈ octGroups fft sr steps, g.1.bin ≤ g.2.bin := by
  intro g hg
  unfold octGroups at hg
  obtain ⟨i, _, rfl⟩ := List.mem_map.mp hg
  exact octBin_mono fft sr (Nat.le_add_right _ _)

theorem octGroups_chain (fft sr steps : ℕ) :
    (octGroups fft sr steps).Chain' (fun g h => g.2.bin ≤ h.1.bin) := by
  unfold octGroups
  apply List.Pairwise.chain'
  apply List.Pairwise.map
  · intro a b hab
    apply octBin_mono
    have h1 : (a + 1) * steps ≤ b * steps := Nat.mul_le_mul_right steps hab
    have h2 : (a + 1) * steps = a * steps + steps := by ring
    omega
  · exact List.pairwise_lt_range _

theorem octPush_spec (lo hi : TSEntry) (prev : Bar) (tail : List Bar)
    (hwf : prev.binLo ≤ prev.binHi) (hlink : prev.binHi ≤ lo.bin) (hg : lo.bin ≤ hi.bin) :
    ∃ nb pN, octPush lo hi prev tail = nb :: pN :: tail ∧
      nb.binHi = hi.bin ∧ nb.binLo ≤ nb.binHi ∧ pN.binHi ≤ nb.binLo ∧
      pN.binLo = prev.binLo ∧ prev.binHi ≤ pN.binHi ∧ pN.binLo ≤ pN.binHi := by
  unfold octPush
  by_cases hdiff : (1 : ℤ) < lo.bin - prev.binHi
  · simp only [hdiff, if_pos]
    have h1 : prev.binHi + 1 ≤ lo.bin - (lo.bin - prev.binHi) / 2 := by omega
    have h2 : lo.bin - (lo.bin - prev.binHi) / 2 + 1 ≤ lo.bin := by omega
    cases tail with
    | nil =>
      dsimp only
      split
      · exact ⟨_, _, rfl, rfl, by dsimp [mkOctBar]; omega, by dsimp [mkOctBar]; omega,
          rfl, by dsimp; omega, by dsimp; omega⟩
      · exact ⟨_, _, rfl, rfl, by dsimp [mkOctBar]; omega, by dsimp [mkOctBar]; omega,
          rfl, by dsimp; omega, by dsimp; omega⟩
    | cons pp tl =>
      dsimp only
      split
      · split
        · exact ⟨_, _, rfl, rfl, by dsimp [mkOctBar]; omega, by dsimp [mkOctBar]; omega,
            rfl, by dsimp; omega, by dsimp; omega⟩
        · exact ⟨_, _, rfl, rfl, by dsimp [mkOctBar]; omega, by dsimp [mkOctBar]; omega,
            rfl, by dsimp; omega, by dsimp; omega⟩
      · split
        · exact ⟨_, _, rfl, rfl, by dsimp [mkOctBar]; omega, by dsimp [mkOctBar]; omega,
            rfl, by dsimp; omega, by dsimp; omega⟩
        · exact ⟨_, _, rfl, rfl, by dsimp [mkOctBar]; omega, by dsimp [mkOctBar]; omega,
            rfl, by dsimp; omega, by dsimp; omega⟩
  · simp only [hdiff, if_neg, if_false]
    split
    · exact ⟨_, _, rfl, rfl, by dsimp [mkOctBar]; omega, by dsimp [mkOctBar]; omega,
        rfl, le_rfl, hwf⟩
    · exact ⟨_, _, rfl, rfl, by dsimp [mkOctBar]; omega, by dsimp [mkOctBar]; omega,
        rfl, le_rfl, hwf⟩

theorem octGo_inv (cfg : Cfg) (gs : List (TSEntry × TSEntry)) :
    ∀ (rev out : List Bar),
      gs.Chain' (fun g h => g.2.bin ≤ h.1.bin) →
      (∀ g ∈ gs, g.1.bin ≤ g.2.bin) →
      barsOrderedRev rev →
      (∀ b ∈ rev.head?, ∀ g ∈ gs.head?, b.binHi ≤ g.1.bin) →
      octGo cfg gs rev = some out →
      barsOrderedRev out := by
  induction gs with
  | nil =>
    intro rev out _ _ hrev _ hout
    rw [octGo] at hout
    simp only [Option.some.injEq] at hout
    exact hout ▸ hrev
  | cons g rest ih =>
    obtain ⟨lo, hi⟩ := g
    intro rev out hchain hwithin hrev hlink hout
    rw [octGo.eq_def] at hout
    dsimp only at hout
    split at hout
    · -- break branch
      cases rev with
      | nil => simp at hout
      | cons prev tail =>
        simp only [Option.some.injEq] at hout
        subst hout
        obtain ⟨hwf, hch⟩ := hrev
        rw [List.chain'_cons'] at hch
        constructor
        · intro b hb
          rcases List.mem_cons.mp hb with hb | hb
          · subst hb
            have := hwf prev (List.mem_cons_self _ _)
            dsimp
            omega
          · exact hwf b (List.mem_cons_of_mem _ hb)
        · rw [List.chain'_cons']
          refine ⟨fun y hy => ?_, hch.2⟩
          have := hch.1 y hy
          dsimp
          omega
    · split at hout
      · -- push branch
        cases rev with
        | nil =>
          dsimp only at hout
          apply ih [_] out (List.Chain'.tail hchain)
            (fun g hg => hwithin g (List.mem_cons_of_mem _ hg)) ?_ ?_ hout
          · constructor
            · intro b hb
              rcases List.mem_cons.mp hb with hb | hb
              · subst hb
                exact hwithin (lo, hi) (List.mem_cons_self _ _)
              · simp at hb
            · simp
          · intro b hb g' hg'
            simp only [List.head?_cons, Option.mem_def, Option.some.injEq] at hb
            subst hb
            have h1 : hi.bin ≤ g'.1.bin := by
              rw [List.chain'_cons'] at hchain
              cases rest with
              | nil => simp at hg'
              | cons r rs =>
                simp only [List.head?_cons, Option.mem_def, Option.some.injEq] at hg'
                subst hg'
                exact hchain.1 r rfl
            dsimp [mkOctBar]
            exact h1
        | cons prev tail =>
          dsimp only at hout
          obtain ⟨hwf, hch⟩ := hrev
          have hprevwf : prev.binLo ≤ prev.binHi := hwf prev (List.mem_cons_self _ _)
          have hplink : prev.binHi ≤ lo.bin := hlink prev rfl (lo, hi) rfl
          have hg : lo.bin ≤ hi.bin := hwithin (lo, hi) (List.mem_cons_self _ _)
          obtain ⟨nb, pN, heq, hnbHi, hnbwf, hsep, hpLo, hpHi1, hpwf⟩ :=
            octPush_spec lo hi prev tail hprevwf hplink hg
          rw [heq] at hout
          rw [List.chain'_cons'] at hch
          apply ih _ out (List.Chain'.tail hchain)
            (fun g hg' => hwithin g (List.mem_cons_of_mem _ hg')) ?_ ?_ hout
          · constructor
            · intro b hb
              rcases List.mem_cons.mp hb with hb | hb
              · exact hb ▸ hnbwf
              · rcases List.mem_cons.mp hb with hb | hb
                · exact hb ▸ hpwf
                · exact hwf b (List.mem_cons_of_mem _ hb)
            · rw [List.chain'_cons']
              refine ⟨fun y hy => ?_, ?_⟩
              · simp only [List.head?_cons, Option.mem_def, Option.some.injEq] at hy
                subst hy
                omega
              · rw [List.chain'_cons']
                refine ⟨fun y hy => ?_, hch.2⟩
                have := hch.1 y hy
                omega
          · intro b hb g' hg'
            simp only [List.head?_cons, Option.mem_def, Option.some.injEq] at hb
            subst hb
            rw [List.chain'_cons'] at hchain
            cases rest with
            | nil => simp at hg'
            | cons r rs =>
              simp only [List.head?_cons, Option.mem_def, Option.some.injEq] at hg'
              subst hg'
              have h2 : hi.bin ≤ r.1.bin := hchain.1 r rfl
              omega
      · -- skipped group (freqLo < minFreq)
        apply ih rev out (List.Chain'.tail hchain)
          (fun g hg => hwithin g (List.mem_cons_of_mem _ hg)) hrev ?_ hout
        intro b hb g' hg'
        have h1 : b.binHi ≤ lo.bin := hlink b hb (lo, hi) rfl
        have hg : lo.bin ≤ hi.bin := hwithin (lo, hi) (List.mem_cons_self _ _)
        rw [List.chain'_cons'] at hchain
        cases rest with
        | nil => simp at hg'
        | cons r rs =>
          simp only [List.head?_cons, Option.mem_def, Option.some.injEq] at hg'
          subst hg'
          have h2 : hi.bin ≤ r.1.bin := hchain.1 r rfl
          omega

theorem assignPos_bins (x w : ℚ) :
    ∀ (i : ℕ) (l : List Bar),
      (assignPos x w i l).map (fun b => (b.binLo, b.binHi)) =
        l.map (fun b => (b.binLo, b.binHi)) := by
  intro i l
  induction l generalizing i with
  | nil => rfl
  | cons b t ih => simp [assignPos, ih]

theorem assignPos_posX (x w : ℚ) (hw : 0 < w) :
    ∀ (i : ℕ) (l : List Bar), orderedPosX (assignPos x w i l) := by
  intro i l
  induction l generalizing i with
  | nil => simp [assignPos, orderedPosX]
  | cons b t ih =>
    cases t with
    | nil => simp [assignPos, orderedPosX]
    | cons c u =>
      have htail := ih (i + 1)
      unfold orderedPosX at htail ⊢
      rw [assignPos] at htail ⊢
      rw [assignPos]
      rw [List.chain'_cons]
      refine ⟨?_, htail⟩
      dsimp
      have : ((i : ℚ)) * w < ((i : ℚ) + 1) * w := by nlinarith
      push_cast
      linarith

theorem analyzerWidth_pos (cfg : Cfg) (hw : 1 ≤ cfg.canvasWidth) : 0 < analyzerWidth cfg := by
  unfold analyzerWidth centerX
  split
  · have : cfg.canvasWidth / 2 < cfg.canvasWidth := Nat.div_lt_self (by omega) (by norm_num)
    omega
  · omega

theorem barsOrderedRev_reverse {rev : List Bar} (h : barsOrderedRev rev) :
    binsWellFormed rev.reverse ∧ binsNonDecreasing rev.reverse := by
  obtain ⟨hwf, hch⟩ := h
  constructor
  · intro b hb
    exact hwf b (List.mem_reverse.mp hb)
  · exact List.chain'_reverse.mpr hch

theorem binsWellFormed_assignPos (x w : ℚ) (i : ℕ) (l : List Bar)
    (h : binsWellFormed l) : binsWellFormed (assignPos x w i l) := by
  intro b hb
  have hmap := assignPos_bins x w i l
  have : (b.binLo, b.binHi) ∈ (assignPos x w i l).map (fun b => (b.binLo, b.binHi)) :=
    List.mem_map_of_mem _ hb
  rw [hmap] at this
  obtain ⟨c, hc, hcb⟩ := List.mem_map.mp this
  have h1 : c.binLo = b.binLo := congrArg Prod.fst hcb
  have h2 : c.binHi = b.binHi := congrArg Prod.snd hcb
  rw [← h1, ← h2]
  exact h c hc

theorem binsNonDecreasing_assignPos (x w : ℚ) (i : ℕ) (l : List Bar)
    (h : binsNonDecreasing l) : binsNonDecreasing (assignPos x w i l) := by
  unfold binsNonDecreasing at h ⊢
  have hmap := assignPos_bins x w i l
  have hiff := List.chain'_map (fun (b : Bar) => (b.binLo, b.binHi))
    (R := fun p q => p.1 ≤ q.1 ∧ p.2 ≤ q.2) (l := assignPos x w i l)
  have hiff2 := List.chain'_map (fun (b : Bar) => (b.binLo, b.binHi))
    (R := fun p q => p.1 ≤ q.1 ∧ p.2 ≤ q.2) (l := l)
  exact hiff.mp (hmap ▸ hiff2.mpr h)

theorem octaveBars_geometry (cfg : Cfg) (bs : List Bar) (hw : 1 ≤ cfg.canvasWidth)
    (h : octaveBars cfg = some bs) :
    binsWellFormed bs ∧ orderedPosX bs ∧ binsNonDecreasing bs := by
  unfold octaveBars at h
  dsimp only at h
  split at h
  · exact absurd h (by simp)
  · exact absurd h (by simp)
  · rename_i b t heq
    simp only [Option.some.injEq] at h
    subst h
    have hrev : barsOrderedRev (b :: t) :=
      octGo_inv cfg (octGroups cfg.fftSize cfg.sampleRate (stepsTable.getD cfg.mode.toNat 0))
        [] (b :: t)
        (octGroups_chain _ _ _) (octGroups_within _ _ _)
        ⟨by simp, by simp⟩ (by simp) heq
    obtain ⟨hwf, hnd⟩ := barsOrderedRev_reverse hrev
    have hlen : 0 < ((b :: t).reverse.length : ℚ) := by
      simp
      positivity
    have hwpos : (0 : ℚ) < ((analyzerWidth cfg : ℕ) : ℚ) / ((b :: t).reverse.length : ℚ) := by
      apply div_pos _ hlen
      exact_mod_cast analyzerWidth_pos cfg hw
    exact ⟨binsWellFormed_assignPos _ _ _ _ hwf,
      assignPos_posX _ _ hwpos _ _,
      binsNonDecreasing_assignPos _ _ _ _ hnd⟩

theorem intRange_pairwise (a b : ℤ) : (intRange a b).Pairwise (· < ·) := by
  unfold intRange
  rw [List.pairwise_map]
  refine (List.pairwise_lt_range _).imp ?_
  intro m n hmn
  show a + (m : ℤ) < a + (n : ℤ)
  omega

theorem linGo_inv (initX : ℤ) (lp : ℤ → ℤ) (l : List ℤ) :
    ∀ (lastPos : ℤ) (rev : List Bar),
      l.Pairwise (· < ·) →
      linOrderedRev rev →
      (∀ b ∈ rev.head?, b.posX = (lastPos : ℚ) ∧ ∀ i ∈ l, b.binHi < i) →
      linOrderedRev (linGo initX lp l lastPos rev) := by
  induction l with
  | nil =>
    intro lastPos rev _ hrev _
    rw [linGo]
    exact hrev
  | cons i rest ih =>
    intro lastPos rev hpw hrev hlink
    rw [linGo.eq_def]
    dsimp only
    rw [List.pairwise_cons] at hpw
    split
    · -- push: pos > lastPos
      rename_i hpos
      apply ih _ _ hpw.2 ?_ ?_
      · obtain ⟨hwf, hbin, hpx⟩ := hrev
        refine ⟨?_, ?_, ?_⟩
        · intro b hb
          rcases List.mem_cons.mp hb with hb | hb
          · subst hb
            dsimp [mkLinBar]
            exact le_rfl
          · exact hwf b hb
        · rw [List.chain'_cons']
          refine ⟨fun y hy => ?_, hbin⟩
          cases rev with
          | nil => simp at hy
          | cons c u =>
            simp only [List.head?_cons, Option.mem_def, Option.some.injEq] at hy
            subst hy
            have := (hlink c rfl).2 i (List.mem_cons_self _ _)
            dsimp [mkLinBar]
            exact this
        · rw [List.chain'_cons']
          refine ⟨fun y hy => ?_, hpx⟩
          cases rev with
          | nil => simp at hy
          | cons c u =>
            simp only [List.head?_cons, Option.mem_def, Option.some.injEq] at hy
            subst hy
            have h1 := (hlink c rfl).1
            dsimp [mkLinBar]
            rw [h1]
            exact_mod_cast hpos
      · intro b hb
        simp only [List.head?_cons, Option.mem_def, Option.some.injEq] at hb
        subst hb
        constructor
        · dsimp [mkLinBar]
        · intro j hj
          dsimp [mkLinBar]
          exact_mod_cast hpw.1 j hj
    · -- pos <= lastPos: merge into last bar (if any)
      cases rev with
      | nil =>
        apply ih _ _ hpw.2
        · exact ⟨by simp, by simp, by simp⟩
        · simp
      | cons c u =>
        obtain ⟨hwf, hbin, hpx⟩ := hrev
        have hc := hlink c rfl
        apply ih _ _ hpw.2 ?_ ?_
        · rw [List.chain'_cons'] at hbin hpx
          refine ⟨?_, ?_, ?_⟩
          · intro b hb
            rcases List.mem_cons.mp hb with hb | hb
            · subst hb
              have h1 := hwf c (List.mem_cons_self _ _)
              have h2 := hc.2 i (List.mem_cons_self _ _)
              dsimp
              omega
            · exact hwf b (List.mem_cons_of_mem _ hb)
          · rw [List.chain'_cons']
            exact ⟨fun y hy => hbin.1 y hy, hbin.2⟩
          · rw [List.chain'_cons']
            exact ⟨fun y hy => hpx.1 y hy, hpx.2⟩
        · intro b hb
          simp only [List.head?_cons, Option.mem_def, Option.some.injEq] at hb
          subst hb
          refine ⟨hc.1, fun j hj => ?_⟩
          dsimp
          exact hpw.1 j hj

theorem nonOverlapping_nonDecreasing : ∀ (l : List Bar), binsWellFormed l →
    binsNonOverlapping l → binsNonDecreasing l := by
  intro l
  induction l with
  | nil =>
    intro _ _
    simp [binsNonDecreasing]
  | cons b t ih =>
    intro hwf hno
    unfold binsNonOverlapping at hno
    unfold binsNonDecreasing at ih ⊢
    rw [List.chain'_cons'] at hno ⊢
    refine ⟨fun y hy => ?_, ih (fun z hz => hwf z (List.mem_cons_of_mem _ hz)) hno.2⟩
    have h1 := hno.1 y hy
    have h2 := hwf b (List.mem_cons_self _ _)
    have h3 : y ∈ t := by
      cases t with
      | nil => simp at hy
      | cons c u =>
        simp only [List.head?_cons, Option.mem_def, Option.some.injEq] at hy
        subst hy
        exact List.mem_cons_self _ _
    have h4 := hwf y (List.mem_cons_of_mem _ h3)
    omega

theorem linearBars_geometry (cfg : Cfg) (lp : ℤ → ℤ) :
    binsWellFormed (linearBars cfg lp) ∧ orderedPosX (linearBars cfg lp) ∧
      binsNonDecreasing (linearBars cfg lp) ∧ binsNonOverlapping (linearBars cfg lp) := by
  unfold linearBars
  have hinv := linGo_inv ((initialX cfg : ℕ) : ℤ) lp
    (intRange (freqToBin cfg.fftSize cfg.sampleRate cfg.minFreq .floor)
      (freqToBin cfg.fftSize cfg.sampleRate cfg.maxFreq .round)) (-999) []
    (intRange_pairwise _ _) ⟨by simp, by simp, by simp⟩ (by simp)
  obtain ⟨hwf, hbin, hpx⟩ := hinv
  have hwfr : binsWellFormed (linGo ((initialX cfg : ℕ) : ℤ) lp
      (intRange (freqToBin cfg.fftSize cfg.sampleRate cfg.minFreq .floor)
        (freqToBin cfg.fftSize cfg.sampleRate cfg.maxFreq .round)) (-999) []).reverse := by
    intro b hb
    exact hwf b (List.mem_reverse.mp hb)
  have hno : binsNonOverlapping (linGo ((initialX cfg : ℕ) : ℤ) lp
      (intRange (freqToBin cfg.fftSize cfg.sampleRate cfg.minFreq .floor)
        (freqToBin cfg.fftSize cfg.sampleRate cfg.maxFreq .round)) (-999) []).reverse :=
    List.chain'_reverse.mpr hbin
  exact ⟨hwfr, List.chain'_reverse.mpr hpx, nonOverlapping_nonDecreasing _ hwfr hno, hno⟩

/-- Claim C2, counterexample: at fftSize 8192 and sampleRate 44100 the Nyquist
frequency 22050 Hz maps to bin 4095 = fftSize/2 - 1, which exceeds the claimed
upper clamp fftSize/2 - 2 = 4094. -/
theorem freqToBin_exceeds_claimed_clamp :
    freqToBin 8192 44100 22050 .round = 4095 ∧
      ¬ freqToBin 8192 44100 22050 .round ≤ 8192 / 2 - 2 := by
  constructor <;> decide

/-- Claim C2 (amended): `_freqToBin` returns the rounded (or floored) value of
`freq * fftSize / sampleRate` clamped from above to `fftSize/2 - 1`
(`frequencyBinCount - 1`), not `fftSize/2 - 2`; no lower clamp is applied, but
the result is nonnegative whenever `freq ≥ 0` (and `fftSize ≥ 2`). -/
theorem freqToBin_clamped (fft sr : ℕ) (freq : ℚ) (r : Rounding) (hsr : 0 < sr) :
    freqToBin fft sr freq r =
      min (roundingApply r (freq * fft / sr)) (((fft / 2 : ℕ) : ℤ) - 1) ∧
    (0 ≤ freq → 2 ≤ fft → 0 ≤ freqToBin fft sr freq r) := by
  have hdnz : freq.den ≠ 0 := freq.den_nz
  have hdq : ((freq.den : ℕ) : ℚ) ≠ 0 := Nat.cast_ne_zero.mpr hdnz
  have hsq : ((sr : ℕ) : ℚ) ≠ 0 := Nat.cast_ne_zero.mpr (by omega)
  have hx : freq * (fft : ℚ) / (sr : ℚ) =
      ((freq.num * (fft : ℕ) : ℤ) : ℚ) / ((freq.den * sr : ℕ) : ℚ) := by
    conv_lhs => rw [← Rat.num_div_den freq]
    push_cast
    field_simp
  have hmin : freqToBin fft sr freq r =
      min (roundingApply r (freq * fft / sr)) (((fft / 2 : ℕ) : ℤ) - 1) := by
    cases r with
    | floor =>
      unfold freqToBin roundingApply
      dsimp only
      rw [hx, Rat.floor_intCast_div_natCast]
      split <;> omega
    | round =>
      unfold freqToBin roundingApply
      dsimp only
      have hd2 : ((freq.den * sr : ℕ) : ℚ) ≠ 0 := Nat.cast_ne_zero.mpr (by positivity)
      have hplus : freq * (fft : ℚ) / (sr : ℚ) + 1 / 2 =
          ((2 * (freq.num * (fft : ℕ)) + ((freq.den * sr : ℕ) : ℤ) : ℤ) : ℚ) /
            (((2 * (freq.den * sr) : ℕ) : ℕ) : ℚ) := by
        rw [hx]
        field_simp
        push_cast
        ring
      rw [round_eq, hplus, Rat.floor_intCast_div_natCast]
      split <;> omega
  refine ⟨hmin, fun h2 hfft => ?_⟩
  rw [hmin]
  have hxq : (0 : ℚ) ≤ freq * fft / sr :=
    div_nonneg (mul_nonneg h2 (Nat.cast_nonneg fft)) (Nat.cast_nonneg sr)
  have hraw : 0 ≤ roundingApply r (freq * fft / sr) := by
    cases r with
    | round =>
      unfold roundingApply
      rw [round_eq]
      exact Int.floor_nonneg.mpr (by linarith)
    | floor =>
      unfold roundingApply
      exact Int.floor_nonneg.mpr hxq
  have hclamp : (0 : ℤ) ≤ ((fft / 2 : ℕ) : ℤ) - 1 := by
    have : 1 ≤ fft / 2 := by omega
    omega
  exact le_min hraw hclamp

/-- Claim C2, witness instance at fftSize 8192, sampleRate 44100, 440 Hz. -/
theorem freqToBin_clamped_witness :
    freqToBin 8192 44100 440 .round =
      min (roundingApply .round (440 * 8192 / 44100)) (((8192 / 2 : ℕ) : ℤ) - 1) ∧
    (0 ≤ (440 : ℚ) → 2 ≤ 8192 → 0 ≤ freqToBin 8192 44100 440 .round) :=
  freqToBin_clamped 8192 44100 440 .round (by norm_num)

/-- Claim C4: `setFreqRange(min, max)` with both values ≥ 1 succeeds and stores
`minFreq = Math.min(min, max)` and `maxFreq = Math.max(min, max)`, so
`minFreq ≤ maxFreq` afterwards; with either value < 1 it raises
`ERR_FREQUENCY_TOO_LOW` and leaves the whole state unchanged. -/
theorem setFreqRange_spec (s : AMState) (mn mx : ℚ) :
    (1 ≤ mn → 1 ≤ mx →
      (s.setFreqRange mn mx).2 = none ∧
      (s.setFreqRange mn mx).1.minFreq = min mn mx ∧
      (s.setFreqRange mn mx).1.maxFreq = max mn mx ∧
      (s.setFreqRange mn mx).1.minFreq ≤ (s.setFreqRange mn mx).1.maxFreq) ∧
    ((mn < 1 ∨ mx < 1) →
      s.setFreqRange mn mx = (s, some AMError.ERR_FREQUENCY_TOO_LOW)) := by
  constructor
  · intro h1 h2
    have hcond : ¬ (mn < 1 ∨ mx < 1) := by push_neg; exact ⟨h1, h2⟩
    unfold AMState.setFreqRange
    rw [if_neg hcond]
    refine ⟨rfl, rfl, rfl, ?_⟩
    exact min_le_max
  · intro hcond
    unfold AMState.setFreqRange
    rw [if_pos hcond]

/-- Claim C4, witness instance: swapped range (5000, 30) accepted, range (0.5, 100)
rejected with state intact. -/
theorem setFreqRange_spec_witness :
    ((demoState.setFreqRange 5000 30).2 = none ∧
      (demoState.setFreqRange 5000 30).1.minFreq = min 5000 30 ∧
      (demoState.setFreqRange 5000 30).1.maxFreq = max 5000 30 ∧
      (demoState.setFreqRange 5000 30).1.minFreq ≤ (demoState.setFreqRange 5000 30).1.maxFreq) ∧
    demoState.setFreqRange (1/2) 100 = (demoState, some AMError.ERR_FREQUENCY_TOO_LOW) :=
  ⟨(setFreqRange_spec demoState 5000 30).1 (by norm_num) (by norm_num),
    (setFreqRange_spec demoState (1/2) 100).2 (Or.inl (by norm_num))⟩

/-- Claim C5, counterexample: the mode setter applies JS `value | 0` (ToInt32),
which wraps modulo 2^32 — the value `2^32 + 5`, whose integer truncation
`2^32 + 5` is outside {0..8, 10}, is nevertheless accepted and stored as mode 5,
so the setter does not raise exactly when the integer-truncated value is outside
the valid set. -/
theorem setMode_wraps_toInt32 :
    ratTrunc (4294967301 : ℚ) = 4294967301 ∧
    (4294967301 : ℤ) = 2 ^ 32 + 5 ∧
    ¬ (0 ≤ (4294967301 : ℤ) ∧ (4294967301 : ℤ) ≤ 10 ∧ (4294967301 : ℤ) ≠ 9) ∧
    (demoState.setMode (4294967301 : ℚ)).2 = none ∧
    (demoState.setMode (4294967301 : ℚ)).1.mode = 5 := by
  refine ⟨by decide, by decide, by decide, by decide, by decide⟩

/-- Claim C5 (amended): assigning the mode property raises `ERR_INVALID_MODE`
exactly when the value converted to a signed 32-bit integer by JS `value | 0`
(truncation toward zero, then wrap modulo 2^32) is outside {0..8, 10} — in
particular 9 raises — and a failed assignment returns the state unchanged;
an accepted assignment stores the converted mode and recomputes the bars. -/
theorem setMode_spec (s : AMState) (v : ℚ) :
    (0 ≤ jsToInt32 v ∧ jsToInt32 v ≤ 10 ∧ jsToInt32 v ≠ 9 →
      (s.setMode v).2 = none ∧ (s.setMode v).1.mode = jsToInt32 v ∧
      (s.setMode v).1.bars = calcBars { s.cfg with mode := jsToInt32 v } s.lp) ∧
    (¬ (0 ≤ jsToInt32 v ∧ jsToInt32 v ≤ 10 ∧ jsToInt32 v ≠ 9) →
      s.setMode v = (s, some AMError.ERR_INVALID_MODE)) := by
  constructor
  · intro h
    unfold AMState.setMode AMState.recalc
    dsimp only
    rw [if_pos h]
    exact ⟨rfl, rfl, rfl⟩
  · intro h
    unfold AMState.setMode
    dsimp only
    rw [if_neg h]

/-- Claim C5, witness instance: mode 7 is accepted and stored; mode 9 raises and
leaves the state unchanged. -/
theorem setMode_spec_witness :
    ((demoState.setMode 7).2 = none ∧ (demoState.setMode 7).1.mode = jsToInt32 7 ∧
      (demoState.setMode 7).1.bars =
        calcBars { demoState.cfg with mode := jsToInt32 7 } demoState.lp) ∧
    demoState.setMode 9 = (demoState, some AMError.ERR_INVALID_MODE) :=
  ⟨(setMode_spec demoState 7).1 (by decide), (setMode_spec demoState 9).2 (by decide)⟩

/-- Claim C8: assigning `fftSize = v` (a power of two) reallocates both
per-channel magnitude arrays to length exactly `v / 2` (the analyzer's
`frequencyBinCount`), stores the new size, and recomputes the bar geometry
against the new configuration. -/
theorem setFftSize_spec (s : AMState) (v : ℕ) (hpow : ∃ k, v = 2 ^ k) :
    (s.setFftSize v).fftData0.length = v / 2 ∧
    (s.setFftSize v).fftData1.length = v / 2 ∧
    (s.setFftSize v).fftSize = v ∧
    (s.setFftSize v).bars = calcBars { s.cfg with fftSize := v } s.lp := by
  unfold AMState.setFftSize
  exact ⟨by simp, by simp, rfl, rfl⟩

/-- Claim C8, witness instance at fftSize 1024 = 2^10. -/
theorem setFftSize_spec_witness :
    (demoState.setFftSize 1024).fftData0.length = 1024 / 2 ∧
    (demoState.setFftSize 1024).fftData1.length = 1024 / 2 ∧
    (demoState.setFftSize 1024).fftSize = 1024 ∧
    (demoState.setFftSize 1024).bars =
      calcBars { demoState.cfg with fftSize := 1024 } demoState.lp :=
  setFftSize_spec demoState 1024 ⟨10, rfl⟩

/-- Claim C10: the individual `minFreq` setter accepts any value ≥ 1 without
comparing it to `maxFreq` — on `demoState` (maxFreq 22000), assigning
minFreq = 30000 succeeds and leaves the stored minFreq above the stored maxFreq,
so the ordering guaranteed by `setFreqRange` is not preserved by every setter. -/
theorem minFreq_setter_allows_inversion :
    (demoState.setMinFreq 30000).2 = none ∧
    (demoState.setMinFreq 30000).1.minFreq = 30000 ∧
    (demoState.setMinFreq 30000).1.maxFreq = 22000 ∧
    (demoState.setMinFreq 30000).1.maxFreq < (demoState.setMinFreq 30000).1.minFreq := by
  refine ⟨by decide, by decide, by decide, by decide⟩

theorem scaleFreqGeB_iff (k : ℕ) (m : ℚ) :
    scaleFreqGeB k m = true ↔ m ^ 24 * 2 ^ 114 ≤ 440 ^ 24 * 2 ^ k := by
  unfold scaleFreqGeB
  rw [decide_eq_true_iff]
  have hden : (0 : ℚ) < (m.den : ℚ) ^ 24 := by
    have := m.den_nz
    positivity
  have h1 : (m ^ 24 * 2 ^ 114 ≤ (440 : ℚ) ^ 24 * 2 ^ k) ↔
      ((m.num : ℚ) ^ 24 * 2 ^ 114 ≤ (440 : ℚ) ^ 24 * 2 ^ k * (m.den : ℚ) ^ 24) := by
    conv_lhs => rw [← Rat.num_div_den m]
    rw [div_pow, div_mul_eq_mul_div, div_le_iff hden]
  rw [h1]
  constructor <;> intro h <;> exact_mod_cast h

theorem scaleFreqGtB_iff (k : ℕ) (m : ℚ) :
    scaleFreqGtB k m = true ↔ m ^ 24 * 2 ^ 114 < 440 ^ 24 * 2 ^ k := by
  unfold scaleFreqGtB
  rw [decide_eq_true_iff]
  have hden : (0 : ℚ) < (m.den : ℚ) ^ 24 := by
    have := m.den_nz
    positivity
  have h1 : (m ^ 24 * 2 ^ 114 < (440 : ℚ) ^ 24 * 2 ^ k) ↔
      ((m.num : ℚ) ^ 24 * 2 ^ 114 < (440 : ℚ) ^ 24 * 2 ^ k * (m.den : ℚ) ^ 24) := by
    conv_lhs => rw [← Rat.num_div_den m]
    rw [div_pow, div_mul_eq_mul_div, div_lt_iff hden]
  rw [h1]
  constructor <;> intro h <;> exact_mod_cast h

set_option maxRecDepth 40000 in
/-- Claim C1, counterexample: in octave mode 1 (a valid configuration —
minFreq 17 ≥ 1, maxFreq 100 ≥ 1, power-of-two fftSize 32), `_calcBars` produces
61 bars that all share FFT bin 0 (consecutive tempered-scale notes fall into the
same bin), so consecutive bars' bin ranges are *not* non-overlapping:
`bar[i+1].binLo > bar[i].binHi` fails. -/
theorem calcBars_mode1_overlapping_bins :
    (calcBars ⟨1, 17, 100, 32, 44100, 64, 0, false⟩ (fun _ => 0)).isSome = true ∧
    ((calcBars ⟨1, 17, 100, 32, 44100, 64, 0, false⟩ (fun _ => 0)).getD []).map Bar.binLo =
      List.replicate 61 0 ∧
    ((calcBars ⟨1, 17, 100, 32, 44100, 64, 0, false⟩ (fun _ => 0)).getD []).map Bar.binHi =
      List.replicate 60 0 ++ [1] ∧
    ¬ binsNonOverlapping ((calcBars ⟨1, 17, 100, 32, 44100, 64, 0, false⟩ (fun _ => 0)).getD []) := by
  refine ⟨by decide, by decide, by decide, by decide⟩

/-- Claim C1 (amended): for every valid configuration (mode in {0..8, 10},
minFreq/maxFreq ≥ 1, power-of-two fftSize, nonempty canvas) and every outcome
of the log-position rounding, whenever `_calcBars` produces a bar sequence the
bars are ordered left-to-right by strictly increasing posX, every bar satisfies
binLo ≤ binHi, and consecutive bars' bin ranges are non-decreasing in both
endpoints; in the linear modes (0 and 10) the ranges are additionally strictly
non-overlapping, but in octave modes consecutive bars may share bins. -/
theorem calcBars_geometry (cfg : Cfg) (lp : ℤ → ℤ) (bs : List Bar)
    (hmode0 : 0 ≤ cfg.mode) (hmode : cfg.mode ≤ 10) (hmode9 : cfg.mode ≠ 9)
    (hmin : 1 ≤ cfg.minFreq) (hmax : 1 ≤ cfg.maxFreq)
    (hfft : ∃ k, cfg.fftSize = 2 ^ k) (hw : 1 ≤ cfg.canvasWidth)
    (h : calcBars cfg lp = some bs) :
    binsWellFormed bs ∧ orderedPosX bs ∧ binsNonDecreasing bs ∧
      (isOctaveBands cfg.mode = false → binsNonOverlapping bs) := by
  unfold calcBars at h
  split at h
  · rename_i hoct
    obtain ⟨h1, h2, h3⟩ := octaveBars_geometry cfg bs hw h
    refine ⟨h1, h2, h3, fun hfalse => ?_⟩
    rw [hoct] at hfalse
    exact absurd hfalse (by simp)
  · rename_i hoct
    simp only [Option.some.injEq] at h
    subst h
    obtain ⟨h1, h2, h3, h4⟩ := linearBars_geometry cfg lp
    exact ⟨h1, h2, h3, fun _ => h4⟩

/-- Claim C1, witness instance: the mode-0 configuration 20–22000 Hz,
fftSize 32, 64 px canvas, identity log-position map. -/
theorem calcBars_geometry_witness :
    binsWellFormed ((calcBars ⟨0, 20, 22000, 32, 44100, 64, 0, false⟩ (fun i => i)).getD []) ∧
    orderedPosX ((calcBars ⟨0, 20, 22000, 32, 44100, 64, 0, false⟩ (fun i => i)).getD []) ∧
    binsNonDecreasing ((calcBars ⟨0, 20, 22000, 32, 44100, 64, 0, false⟩ (fun i => i)).getD []) ∧
    (isOctaveBands (⟨0, 20, 22000, 32, 44100, 64, 0, false⟩ : Cfg).mode = false →
      binsNonOverlapping ((calcBars ⟨0, 20, 22000, 32, 44100, 64, 0, false⟩ (fun i => i)).getD [])) :=
  calcBars_geometry ⟨0, 20, 22000, 32, 44100, 64, 0, false⟩ (fun i => i) _
    (by decide) (by decide) (by decide) (by decide) (by decide) ⟨5, rfl⟩ (by decide)
    (by decide)

/-- Claim C3, counterexample: mode 10 does *not* use the octave-band algorithm —
`_calcAux` computes `isOctaveBands = mode % 10 != 0`, which is false for 10, so
`_calcBars` takes the linear/logarithmic branch and produces exactly the same
bars as mode 0 on the same configuration. -/
theorem mode10_uses_linear_algorithm :
    isOctaveBands 10 = false ∧
    calcBars ⟨10, 20, 22000, 32, 44100, 64, 0, false⟩ (fun i => i) =
      some (linearBars ⟨10, 20, 22000, 32, 44100, 64, 0, false⟩ (fun i => i)) ∧
    calcBars ⟨10, 20, 22000, 32, 44100, 64, 0, false⟩ (fun i => i) =
      calcBars ⟨0, 20, 22000, 32, 44100, 64, 0, false⟩ (fun i => i) := by
  refine ⟨rfl, rfl, by decide⟩

/-- Claim C3 (amended): modes 1–8 use the musical/octave-band algorithm (the
264-entry, 24-notes-per-octave tempered scale grouped by the per-mode step count
taken from `[0,1,2,3,4,6,8,12,24]`), while modes 0 *and 10* use the
linear/logarithmic discrete algorithm — the dispatch is
`isOctaveBands = mode % 10 != 0`. -/
theorem calcBars_mode_dispatch (cfg : Cfg) (lp : ℤ → ℤ) :
    (1 ≤ cfg.mode → cfg.mode ≤ 8 →
      calcBars cfg lp = octaveBars cfg ∧
      stepsTable.getD cfg.mode.toNat 0 ∈ [1, 2, 3, 4, 6, 8, 12, 24]) ∧
    (cfg.mode = 0 ∨ cfg.mode = 10 → calcBars cfg lp = some (linearBars cfg lp)) := by
  constructor
  · intro h1 h8
    have hoct : isOctaveBands cfg.mode = true := by
      unfold isOctaveBands
      simp only [bne_iff_ne, ne_eq]
      omega
    constructor
    · unfold calcBars
      rw [hoct]
      simp
    · have h2 : cfg.mode.toNat = 1 ∨ cfg.mode.toNat = 2 ∨ cfg.mode.toNat = 3 ∨
          cfg.mode.toNat = 4 ∨ cfg.mode.toNat = 5 ∨ cfg.mode.toNat = 6 ∨
          cfg.mode.toNat = 7 ∨ cfg.mode.toNat = 8 := by omega
      rcases h2 with h | h | h | h | h | h | h | h <;> rw [h] <;> decide
  · intro h
    have hoct : isOctaveBands cfg.mode = false := by
      unfold isOctaveBands
      rcases h with h | h <;> rw [h] <;> decide
    unfold calcBars
    rw [hoct]
    simp

/-- Claim C3, witness instance: mode 3 runs the octave algorithm with a valid
step count; mode 0 runs the linear algorithm. -/
theorem calcBars_mode_dispatch_witness :
    (calcBars ⟨3, 20, 22000, 32, 44100, 64, 0, false⟩ (fun i => i) =
        octaveBars ⟨3, 20, 22000, 32, 44100, 64, 0, false⟩ ∧
      stepsTable.getD (⟨3, 20, 22000, 32, 44100, 64, 0, false⟩ : Cfg).mode.toNat 0 ∈
        [1, 2, 3, 4, 6, 8, 12, 24]) ∧
    calcBars ⟨0, 20, 22000, 32, 44100, 64, 0, false⟩ (fun i => i) =
      some (linearBars ⟨0, 20, 22000, 32, 44100, 64, 0, false⟩ (fun i => i)) :=
  ⟨(calcBars_mode_dispatch ⟨3, 20, 22000, 32, 44100, 64, 0, false⟩ (fun i => i)).1
      (by decide) (by decide),
    (calcBars_mode_dispatch ⟨0, 20, 22000, 32, 44100, 64, 0, false⟩ (fun i => i)).2
      (Or.inl rfl)⟩

/-- Claim C6: `registerGradient` validates before any state mutation — with a
valid name and an options object whose `colorStops` is missing or shorter than
two entries it raises `ERR_GRADIENT_MISSING_COLOR` and leaves the gradient table
(including any gradient previously registered under that name, such as the
built-in "classic") unchanged; a non-string or whitespace-only name raises
`ERR_GRADIENT_INVALID_NAME`, likewise without mutation. -/
theorem registerGradient_validation (s : AMState) (nm : String) (o : GradOptions)
    (name : Option String) (opts : Option GradOptions)
    (hn : jsBlank nm = false)
    (hcs : ∀ cs, o.colorStops = some cs → cs.length < 2)
    (hname : ∀ str, name = some str → jsBlank str = true) :
    s.registerGradient (some nm) (some o) = (s, some AMError.ERR_GRADIENT_MISSING_COLOR) ∧
    (s.registerGradient (some nm) (some o)).1.gradients = s.gradients ∧
    List.lookup "classic" (s.registerGradient (some nm) (some o)).1.gradients =
      List.lookup "classic" s.gradients ∧
    s.registerGradient name opts = (s, some AMError.ERR_GRADIENT_INVALID_NAME) := by
  have h1 : s.registerGradient (some nm) (some o) =
      (s, some AMError.ERR_GRADIENT_MISSING_COLOR) := by
    unfold AMState.registerGradient
    simp only [hn, Bool.false_eq_true, if_false]
    cases hcso : o.colorStops with
    | none => rfl
    | some cs =>
      dsimp only
      rw [if_pos (hcs cs hcso)]
  refine ⟨h1, by rw [h1], by rw [h1], ?_⟩
  cases name with
  | none => rfl
  | some str =>
    have hb := hname str rfl
    unfold AMState.registerGradient
    dsimp only
    rw [hb, if_pos rfl]

/-- Claim C6, witness instance: registering "classic" with a single color stop
on the default gradient table fails with the missing-color error and the
built-in "classic" gradient survives; an all-whitespace name fails with the
invalid-name error. -/
theorem registerGradient_validation_witness :
    demoState.registerGradient (some "classic")
        (some { colorStops := some [ColorStop.color "red"] }) =
      (demoState, some AMError.ERR_GRADIENT_MISSING_COLOR) ∧
    (demoState.registerGradient (some "classic")
        (some { colorStops := some [ColorStop.color "red"] })).1.gradients =
      demoState.gradients ∧
    List.lookup "classic" (demoState.registerGradient (some "classic")
        (some { colorStops := some [ColorStop.color "red"] })).1.gradients =
      List.lookup "classic" demoState.gradients ∧
    demoState.registerGradient (some " ") none =
      (demoState, some AMError.ERR_GRADIENT_INVALID_NAME) :=
  registerGradient_validation demoState "classic"
    { colorStops := some [ColorStop.color "red"] } (some " ") none
    (by decide) (fun cs h => by cases h; decide) (fun str h => by cases h; decide)

/-- The unrolled bin loop of `getEnergy` sums the bins of the inclusive integer
interval `[a, a + n - 1]`. -/
theorem sumLoop_eq_sum_Icc (f : ℤ → ℚ) (n : ℕ) : ∀ a : ℤ,
    sumLoop f a n = ∑ i ∈ Finset.Icc a (a + n - 1), f i := by
  induction n with
  | zero =>
    intro a
    rw [Finset.Icc_eq_empty (by omega), Finset.sum_empty]
    rfl
  | succ k ih =>
    intro a
    have hins : Finset.Icc a (a + (k + 1 : ℕ) - 1) =
        insert a (Finset.Icc (a + 1) (a + 1 + (k : ℕ) - 1)) := by
      ext x
      simp only [Finset.mem_Icc, Finset.mem_insert]
      omega
    have hnot : a ∉ Finset.Icc (a + 1) (a + 1 + (k : ℕ) - 1) := by
      simp only [Finset.mem_Icc]
      omega
    rw [hins, Finset.sum_insert hnot, ← ih (a + 1)]
    rfl

/-- Summing a mapped `List.range` equals the corresponding `Finset.range` sum. -/
theorem list_range_map_sum (f : ℕ → ℚ) (n : ℕ) :
    ((List.range n).map f).sum = ∑ i ∈ Finset.range n, f i := by
  induction n with
  | zero => rfl
  | succ k ih =>
    rw [List.range_succ, List.map_append, List.sum_append, Finset.sum_range_succ, ih]
    simp

/-- The frequency-range branch of `getEnergy` computes exactly the mean byte
magnitude over the inclusive bin range, averaged over channels, normalized by
255 — provided the end frequency is truthy and the bin range is non-empty. -/
theorem bandEnergyCalc_eq_mean (s : AMState) (f e : ℚ) (he : e ≠ 0)
    (hbins : freqToBin s.fftSize s.sampleRate f .round ≤
      freqToBin s.fftSize s.sampleRate e .round) :
    bandEnergyCalc s f (some e) =
      meanMagnitude s (freqToBin s.fftSize s.sampleRate f .round)
        (freqToBin s.fftSize s.sampleRate e .round) := by
  unfold bandEnergyCalc meanMagnitude
  dsimp only
  rw [if_neg he]
  set a := freqToBin s.fftSize s.sampleRate f .round with ha
  set b := freqToBin s.fftSize s.sampleRate e .round with hb
  have hsum : ∀ c : ℕ, sumLoop (fun i => ((s.dataOf c).getD i.toNat 0 : ℚ)) a
      (b + 1 - a).toNat = ∑ i ∈ Finset.Icc a b, ((s.dataOf c).getD i.toNat 0 : ℚ) := by
    intro c
    rw [sumLoop_eq_sum_Icc]
    have harg : a + ((b + 1 - a).toNat : ℤ) - 1 = b := by omega
    rw [harg]
  simp only [hsum]
  rw [list_range_map_sum, div_div, div_div, ← mul_assoc]

/-- Claim C7: `getEnergy` dispatches on its argument — called with no argument
it returns the stored overall energy `_energy.val`; with the string `'peak'` it
returns `_energy.peak`; with a non-numeric string that is not `'peak'` and not
one of the preset band names it returns `null`; and with numeric start/end
frequencies (end truthy, bin range non-empty) it returns the mean of the byte
magnitudes over the inclusive FFT-bin range `[freqToBin start, freqToBin end]`,
averaged over the active channels and normalized by 255. -/
theorem getEnergy_dispatch (s : AMState) (name : String) (f e : ℚ)
    (hname : name ≠ "peak") (hpreset : presetBand name = none) (he : e ≠ 0)
    (hbins : freqToBin s.fftSize s.sampleRate f .round ≤
      freqToBin s.fftSize s.sampleRate e .round) :
    s.getEnergy .noArg = some s.energy.val ∧
    s.getEnergy (.str "peak") = some s.energy.peak ∧
    s.getEnergy (.str name) = none ∧
    s.getEnergy (.freqs f (some e)) =
      some (meanMagnitude s (freqToBin s.fftSize s.sampleRate f .round)
        (freqToBin s.fftSize s.sampleRate e .round)) := by
  refine ⟨rfl, rfl, ?_, ?_⟩
  · show (if name = "peak" then some s.energy.peak
      else match presetBand name with
        | none => none
        | some (a, b) => some (bandEnergyCalc s a (some b))) = none
    rw [if_neg hname, hpreset]
  · show some (bandEnergyCalc s f (some e)) = _
    rw [bandEnergyCalc_eq_mean s f e he hbins]

/-- Claim C7, witness instance: on the demonstration state with a non-trivial
magnitude array, no argument yields the stored value, `'peak'` yields the
stored peak, the unknown name `'sub'` yields `null`, and the 3000–6000 Hz query
yields the mean magnitude over its FFT-bin range. -/
theorem getEnergy_dispatch_witness :
    demoStateData.getEnergy .noArg = some demoStateData.energy.val ∧
    demoStateData.getEnergy (.str "peak") = some demoStateData.energy.peak ∧
    demoStateData.getEnergy (.str "sub") = none ∧
    demoStateData.getEnergy (.freqs 3000 (some 6000)) =
      some (meanMagnitude demoStateData
        (freqToBin demoStateData.fftSize demoStateData.sampleRate 3000 .round)
        (freqToBin demoStateData.fftSize demoStateData.sampleRate 6000 .round)) :=
  getEnergy_dispatch demoStateData "sub" 3000 6000 (by decide) rfl (by norm_num)
    (by decide)

/-- When every byte of the magnitude array is the constant `c`, every bar's
frame height is `c / 255` (the interpolation terms collapse and the inner
maximum loop is constant). -/
theorem barFrameValue_const (c : ℕ) (rEval : RatioVal → ℚ) (b : Bar) :
    barFrameValue (fun j => c) rEval b = (c : ℚ) / 255 := by
  unfold barFrameValue
  dsimp only
  simp only [sub_self, zero_mul, add_zero, max_self]
  congr 1
  generalize List.range (b.binHi - (b.binLo + 1)).toNat = l
  induction l with
  | nil => rfl
  | cons hd tl ih => rw [List.foldl_cons, max_self]; exact ih

/-- Mapping the constant-data frame height over a bar list yields a constant
replicate. -/
theorem map_barFrameValue_const (c : ℕ) (rEval : RatioVal → ℚ) :
    ∀ bars : List Bar, bars.map (barFrameValue (fun j => c) rEval) =
      List.replicate bars.length ((c : ℚ) / 255)
  | [] => rfl
  | b :: t => by
    rw [List.map_cons, barFrameValue_const, List.length_cons, List.replicate_succ,
      map_barFrameValue_const c rEval t]

/-- When every byte of every channel's magnitude array is the constant `c`, the
frame's instantaneous energy value `currentEnergy / ( nBars << isStereo )` is
exactly `c / 255`, for any non-empty bar list, channel mode and ratio values. -/
theorem frameEnergyVal_const (bars : List Bar) (stereo : Bool) (c : ℕ)
    (rEval : RatioVal → ℚ) (h : bars ≠ []) :
    frameEnergyVal bars stereo (fun u v => c) rEval = (c : ℚ) / 255 := by
  unfold frameEnergyVal
  dsimp only
  simp only [map_barFrameValue_const, List.sum_replicate, smul_eq_mul,
    List.map_const', List.length_replicate]
  have hlen : (bars.length : ℚ) ≠ 0 := by
    simpa using h
  have hm : (((channelList stereo).length : ℕ) : ℚ) ≠ 0 := by
    cases stereo <;> simp [channelList]
  field_simp
  ring

/-- Claim C9: starting from the initial zero energy record `{ val: 0, peak: 0,
hold: 0 }`, a frame whose magnitude bytes are all 0 produces instantaneous
energy 0 with peak 0, and a following frame whose bytes are all 255 produces
instantaneous energy 1 with peak 1 and the hold counter reset to 30 — for any
non-empty bar list, in mono or stereo, whatever the bars' interpolation ratios. -/
theorem frame_energy_zero_and_full (bars : List Bar) (stereo : Bool)
    (rEval : RatioVal → ℚ) (h : bars ≠ []) :
    frameEnergyVal bars stereo (fun u v => 0) rEval = 0 ∧
    updateEnergy ⟨0, 0, 0⟩ (frameEnergyVal bars stereo (fun u v => 0) rEval) =
      ⟨0, 0, 30⟩ ∧
    frameEnergyVal bars stereo (fun u v => 255) rEval = 1 ∧
    updateEnergy ⟨0, 0, 30⟩ (frameEnergyVal bars stereo (fun u v => 255) rEval) =
      ⟨1, 1, 30⟩ := by
  have h0 := frameEnergyVal_const bars stereo 0 rEval h
  have h255 := frameEnergyVal_const bars stereo 255 rEval h
  norm_num at h0 h255
  refine ⟨h0, ?_, h255, ?_⟩
  · rw [h0]
    unfold updateEnergy
    rw [if_pos (le_refl (0 : ℚ))]
  · rw [h255]
    unfold updateEnergy
    rw [if_pos (by norm_num : (0 : ℚ) ≤ 1)]

/-- Claim C9, witness instance: a single bar covering bin 0, mono, ratio values
evaluated to 0 — the all-zero frame gives energy 0 / peak 0, the all-255 frame
gives energy 1 / peak 1 / hold 30. -/
theorem frame_energy_zero_and_full_witness :
    frameEnergyVal [demoBar] false (fun u v => 0) (fun r => 0) = 0 ∧
    updateEnergy ⟨0, 0, 0⟩ (frameEnergyVal [demoBar] false (fun u v => 0) (fun r => 0)) =
      ⟨0, 0, 30⟩ ∧
    frameEnergyVal [demoBar] false (fun u v => 255) (fun r => 0) = 1 ∧
    updateEnergy ⟨0, 0, 30⟩ (frameEnergyVal [demoBar] false (fun u v => 255) (fun r => 0)) =
      ⟨1, 1, 30⟩ :=
  frame_energy_zero_and_full [demoBar] false (fun r => 0) (List.cons_ne_nil demoBar [])
